import Mathlib

/- Verification of the stock-analysis dashboard core (services/stock_service.py,
services/alpha_vantage_service.py).  The numeric pipeline is embedded over ℚ; the
IEEE-754 NaN/infinity behaviour that pandas uses to mark missing indicator values
is modelled explicitly by the FVal type below. -/

namespace StockAnalysis

/- Batteries marks rational arithmetic irreducible for the elaborator; the
kernel reduces it fine, and concrete evaluations below go through decide, so
restore default reducibility for this file. -/
attribute [local semireducible] Rat.add Rat.sub Rat.mul Rat.inv

set_option maxRecDepth 40000

/-- Model of an IEEE-754 double restricted to what the pipeline can produce: a
finite rational, a signed infinity, or NaN.  Pandas marks a missing indicator
value as NaN. -/
inductive FVal where
  | num (q : ℚ)
  | pinf
  | ninf
  | nan
deriving DecidableEq

/-- Negation of a float value. -/
def FVal.fneg : FVal → FVal
  | .num q => .num (-q)
  | .pinf => .ninf
  | .ninf => .pinf
  | .nan => .nan

/-- Addition of float values, IEEE semantics (NaN propagates, inf + -inf = NaN). -/
def FVal.fadd : FVal → FVal → FVal
  | .nan, _ => .nan
  | _, .nan => .nan
  | .num a, .num b => .num (a + b)
  | .num _, .pinf => .pinf
  | .num _, .ninf => .ninf
  | .pinf, .num _ => .pinf
  | .ninf, .num _ => .ninf
  | .pinf, .pinf => .pinf
  | .ninf, .ninf => .ninf
  | .pinf, .ninf => .nan
  | .ninf, .pinf => .nan

/-- Subtraction of float values. -/
def FVal.fsub (a b : FVal) : FVal := a.fadd b.fneg

/-- Multiplication of float values, IEEE semantics (0 * inf = NaN). -/
def FVal.fmul : FVal → FVal → FVal
  | .nan, _ => .nan
  | _, .nan => .nan
  | .num a, .num b => .num (a * b)
  | .num a, .pinf => if a = 0 then .nan else if 0 < a then .pinf else .ninf
  | .num a, .ninf => if a = 0 then .nan else if 0 < a then .ninf else .pinf
  | .pinf, .num b => if b = 0 then .nan else if 0 < b then .pinf else .ninf
  | .ninf, .num b => if b = 0 then .nan else if 0 < b then .ninf else .pinf
  | .pinf, .pinf => .pinf
  | .ninf, .ninf => .pinf
  | .pinf, .ninf => .ninf
  | .ninf, .pinf => .ninf

/-- Division of float values, IEEE semantics with a positive zero denominator
(the only way a zero denominator arises in this code): 0/0 = NaN, x/0 = ±inf for
x ≠ 0, finite/inf = 0. -/
def FVal.fdiv : FVal → FVal → FVal
  | .nan, _ => .nan
  | _, .nan => .nan
  | .num a, .num b =>
      if b = 0 then (if a = 0 then .nan else if 0 < a then .pinf else .ninf)
      else .num (a / b)
  | .num _, .pinf => .num 0
  | .num _, .ninf => .num 0
  | .pinf, .num b => if 0 ≤ b then .pinf else .ninf
  | .ninf, .num b => if 0 ≤ b then .ninf else .pinf
  | .pinf, .pinf => .nan
  | .pinf, .ninf => .nan
  | .ninf, .pinf => .nan
  | .ninf, .ninf => .nan

/-- Strict less-than on float values; any comparison with NaN is false. -/
def FVal.flt : FVal → FVal → Bool
  | .num a, .num b => decide (a < b)
  | .num _, .pinf => true
  | .ninf, .num _ => true
  | .ninf, .pinf => true
  | _, _ => false

/-- Non-strict less-than on float values; any comparison with NaN is false. -/
def FVal.fle : FVal → FVal → Bool
  | .num a, .num b => decide (a ≤ b)
  | .num _, .pinf => true
  | .ninf, .num _ => true
  | .ninf, .ninf => true
  | .ninf, .pinf => true
  | .pinf, .pinf => true
  | _, _ => false

/-- pd.notna: true on every value except NaN. -/
def FVal.notna : FVal → Bool
  | .nan => false
  | _ => true

/-- One daily OHLCV bar (a row of the fetched DataFrame / one dict of the Alpha
Vantage daily_data list).  Dates are modelled as day numbers. -/
structure Bar where
  date : ℤ
  open_price : ℚ
  high : ℚ
  low : ℚ
  close : ℚ
  volume : ℕ
deriving DecidableEq

/-- The five signal kinds the detectors emit. -/
inductive SigType where
  | volume_surge
  | sma_breakout
  | bollinger_breakout
  | hammer_reversal
  | macd_golden_cross
deriving DecidableEq

/-- A detected signal record (the free-text description field is omitted; no
claim mentions it). -/
structure Signal where
  date : ℤ
  stype : SigType
  strength : ℚ
  price : ℚ
  volume : ℚ
deriving DecidableEq

/-- Column volume_sma_20 of calculate_technical_indicators (stock_service line
97): data['volume'].rolling(window=20).mean(), i.e. the mean of the 20 volumes
ending at index i inclusive, NaN while fewer than 20 observations exist. -/
def volume_sma_20 (bars : List Bar) (i : ℕ) : FVal :=
  if 19 ≤ i ∧ i < bars.length then
    .num ((((bars.drop (i - 19)).take 20).map (fun b => (b.volume : ℚ))).sum / 20)
  else .nan

/-- Column volume_ratio of calculate_technical_indicators (stock_service line
98): data['volume'] / data['volume_sma_20'], elementwise float division. -/
def volume_ratio_col (bars : List Bar) (i : ℕ) : FVal :=
  match bars[i]? with
  | some b => (FVal.num (b.volume : ℚ)).fdiv (volume_sma_20 bars i)
  | none => .nan

/-- The slice of an indicator-annotated row that detect_volume_surge reads. -/
structure VFrame where
  date : ℤ
  close : ℚ
  volume : ℚ
  volume_ratio : FVal
deriving DecidableEq

/-- Annotation of a bar sequence with the volume columns of
calculate_technical_indicators (lines 97-98). -/
def volumeAnnotate (bars : List Bar) : List VFrame :=
  (List.range bars.length).filterMap (fun i =>
    (bars[i]?).map (fun b => ⟨b.date, b.close, (b.volume : ℚ), volume_ratio_col bars i⟩))

/-- Row-level rule of detect_volume_surge (stock_service lines 135-156): the
boolean mask data['volume_ratio'] > threshold keeps a row exactly when the ratio
is a number strictly greater than the threshold (NaN compares false); the
subsequent pd.notna check is then redundant.  strength = min(ratio*20, 100). -/
def volumeSurgeAt (threshold : ℚ) (row : VFrame) : Option Signal :=
  match row.volume_ratio with
  | .num r =>
      if threshold < r then
        some ⟨row.date, .volume_surge, min (r * 20) 100, row.close, row.volume⟩
      else none
  | _ => none

/-- detect_volume_surge: one signal per row passing the mask, in row order.
(The guard for a missing volume_ratio column never fires after annotation.) -/
def detect_volume_surge (data : List VFrame) (threshold : ℚ) : List Signal :=
  data.filterMap (volumeSurgeAt threshold)

/-- avg_volume of calculate_volume_surge (alpha_vantage_service line 184):
sum(volume[j] for j in range(i-19, i)) / 20.  Note the sum has only the 19
previous days (it excludes day i) yet is divided by 20, exactly as the source
does. -/
def avg_volume_20 (daily : List Bar) (i : ℕ) : ℚ :=
  (((daily.drop (i - 19)).take 19).map (fun b => (b.volume : ℚ))).sum / 20

/-- Loop body of calculate_volume_surge (alpha_vantage_service lines 180-198) at
index i: requires a positive average volume and ratio >= threshold (inclusive). -/
def calc_volume_surge_at (threshold : ℚ) (daily : List Bar) (i : ℕ) : Option Signal :=
  match daily[i]? with
  | some b =>
      if 0 < avg_volume_20 daily i then
        if threshold ≤ (b.volume : ℚ) / avg_volume_20 daily i then
          some ⟨b.date, .volume_surge, min (((b.volume : ℚ) / avg_volume_20 daily i) * 20) 100,
            b.close, (b.volume : ℚ)⟩
        else none
      else none
  | none => none

/-- calculate_volume_surge (alpha_vantage_service lines 172-200): empty below 20
bars, otherwise scan indices 19 .. len-1. -/
def calculate_volume_surge (daily : List Bar) (threshold : ℚ) : List Signal :=
  if daily.length < 20 then []
  else (List.range daily.length).flatMap (fun i =>
    if 19 ≤ i then (calc_volume_surge_at threshold daily i).toList else [])

/-- Python round() at integer precision: round half to even. -/
def roundHalfEven (q : ℚ) : ℤ :=
  if q - ⌊q⌋ < 1 / 2 then ⌊q⌋
  else if 1 / 2 < q - ⌊q⌋ then ⌊q⌋ + 1
  else if ⌊q⌋ % 2 = 0 then ⌊q⌋ else ⌊q⌋ + 1

/-- Python round(x, 2). -/
def roundTo2 (q : ℚ) : ℚ := (roundHalfEven (q * 100) : ℚ) / 100

/-- Composite score of analyze_stock (stock_service lines 266-269 and 284, and
identically alpha_vantage_service lines 253-256 and 270): filter the signals to
those with today - date <= 30, average their strengths (0 when none qualify),
round to 2 decimal places. -/
def composite_score (signals : List Signal) (today : ℤ) : ℚ :=
  let recent := signals.filter (fun s => today - s.date ≤ 30)
  let total : ℚ := if recent.isEmpty then 0 else (recent.map Signal.strength).sum / recent.length
  roundTo2 total

/-- C1: for every signal set and reference date, the composite score equals the
arithmetic mean of strength over the signals whose date lies within 30 days of
the reference date (inclusive, today - date <= 30), rounded to 2 decimal
places, and equals 0 (a value, not an error) when no signal falls in the
window. -/
theorem C1_composite_score_spec (signals : List Signal) (today : ℤ) :
    composite_score signals today =
      (if (signals.filter (fun s => today - s.date ≤ 30)).isEmpty then 0
       else roundTo2 (((signals.filter (fun s => today - s.date ≤ 30)).map Signal.strength).sum /
         ((signals.filter (fun s => today - s.date ≤ 30)).length : ℚ))) := by
  unfold composite_score
  by_cases h : (signals.filter (fun s => today - s.date ≤ 30)).isEmpty
  · simp only [h, if_pos]
    norm_num [roundTo2, roundHalfEven]
  · simp only [h, if_neg, Bool.false_eq_true, not_false_iff]

/-- Helper building a flat bar: open = high = low = close. -/
def mkBar (d : ℤ) (c : ℚ) (v : ℕ) : Bar := ⟨d, c, c, c, c, v⟩

/-- Twenty bars whose volumes are 9 on the first 19 days and 19 on the last
day: the trailing-20 volume mean on day 19 is 190/20 = 9.5, so the volume
ratio there is exactly 2.0. -/
def c2bars : List Bar :=
  [mkBar 0 100 9, mkBar 1 100 9, mkBar 2 100 9, mkBar 3 100 9, mkBar 4 100 9,
   mkBar 5 100 9, mkBar 6 100 9, mkBar 7 100 9, mkBar 8 100 9, mkBar 9 100 9,
   mkBar 10 100 9, mkBar 11 100 9, mkBar 12 100 9, mkBar 13 100 9, mkBar 14 100 9,
   mkBar 15 100 9, mkBar 16 100 9, mkBar 17 100 9, mkBar 18 100 9, mkBar 19 100 19]

/-- C2 counterexample: on c2bars the volume ratio at index 19 is defined and
equals exactly 2.0, the default threshold, yet detect_volume_surge emits no
signal, because the source filters with a strict mask
data['volume_ratio'] > threshold.  The claim asserts a signal at ratio >= 2.0
inclusive, so it fails here. -/
theorem C2_volume_surge_counterexample :
    (volumeAnnotate c2bars).map VFrame.volume_ratio =
      List.replicate 19 FVal.nan ++ [FVal.num 2]
    ∧ detect_volume_surge (volumeAnnotate c2bars) 2 = [] := by
  decide

/-- C2 amended: stock_service's detect_volume_surge emits a signal at a row
with a defined volume ratio r iff r is strictly greater than the threshold
(ratio exactly 2.0 does not fire); alpha_vantage's calculate_volume_surge emits
at index i iff its 20-day average volume is positive and volume/avg >= threshold
(inclusive).  In both, the signal's strength is min(ratio * 20, 100). -/
theorem C2_volume_surge_amended :
    (∀ (row : VFrame) (r : ℚ), row.volume_ratio = FVal.num r →
      (((volumeSurgeAt 2 row).isSome) ↔ 2 < r)
      ∧ (∀ s, volumeSurgeAt 2 row = some s → s.strength = min (r * 20) 100))
    ∧ (∀ (daily : List Bar) (i : ℕ) (b : Bar), daily[i]? = some b →
      (((calc_volume_surge_at 2 daily i).isSome) ↔
        (0 < avg_volume_20 daily i ∧ 2 ≤ (b.volume : ℚ) / avg_volume_20 daily i))
      ∧ (∀ s, calc_volume_surge_at 2 daily i = some s →
          s.strength = min (((b.volume : ℚ) / avg_volume_20 daily i) * 20) 100)) := by
  constructor
  · intro row r hr
    constructor
    · simp only [volumeSurgeAt, hr]
      by_cases h2 : (2 : ℚ) < r
      · simp [h2]
      · simp [h2]
    · intro s hs
      simp only [volumeSurgeAt, hr] at hs
      by_cases h2 : (2 : ℚ) < r
      · rw [if_pos h2] at hs
        injection hs with h
        rw [← h]
      · rw [if_neg h2] at hs
        exact absurd hs (by simp)
  · intro daily i b hb
    constructor
    · simp only [calc_volume_surge_at, hb]
      by_cases h0 : 0 < avg_volume_20 daily i
      · by_cases h2 : (2 : ℚ) ≤ (b.volume : ℚ) / avg_volume_20 daily i
        · simp [h0, h2]
        · simp [h0, h2]
      · simp [h0]
    · intro s hs
      simp only [calc_volume_surge_at, hb] at hs
      by_cases h0 : 0 < avg_volume_20 daily i
      · by_cases h2 : (2 : ℚ) ≤ (b.volume : ℚ) / avg_volume_20 daily i
        · rw [if_pos h0, if_pos h2] at hs
          injection hs with h
          rw [← h]
        · rw [if_pos h0, if_neg h2] at hs
          exact absurd hs (by simp)
      · rw [if_neg h0] at hs
        exact absurd hs (by simp)

/-- Twenty bars with volume 10 except a 3x surge on the last day, witnessing
the alpha_vantage branch of the amended C2 statement. -/
def w2daily : List Bar :=
  [mkBar 0 100 10, mkBar 1 100 10, mkBar 2 100 10, mkBar 3 100 10, mkBar 4 100 10,
   mkBar 5 100 10, mkBar 6 100 10, mkBar 7 100 10, mkBar 8 100 10, mkBar 9 100 10,
   mkBar 10 100 10, mkBar 11 100 10, mkBar 12 100 10, mkBar 13 100 10, mkBar 14 100 10,
   mkBar 15 100 10, mkBar 16 100 10, mkBar 17 100 10, mkBar 18 100 10, mkBar 19 100 30]

/-- Witness row with a defined volume ratio of 3. -/
def c2wrow : VFrame := ⟨0, 100, 30, FVal.num 3⟩

/-- Witness for the amended C2 theorem at concrete inputs. -/
theorem C2_volume_surge_amended_witness :
    (((volumeSurgeAt 2 c2wrow).isSome) ↔ (2 : ℚ) < 3)
    ∧ (((calc_volume_surge_at 2 w2daily 19).isSome) ↔
        (0 < avg_volume_20 w2daily 19 ∧ 2 ≤ ((30 : ℕ) : ℚ) / avg_volume_20 w2daily 19)) :=
  ⟨(C2_volume_surge_amended.1 c2wrow 3 rfl).1,
   (C2_volume_surge_amended.2 w2daily 19 (mkBar 19 100 30) rfl).1⟩

/-- Sixty flat bars with volume 10 except a single 3x spike (volume 30) on day
40, the synthetic sequence of the round-trip property. -/
def c4bars : List Bar :=
  (List.range 60).map (fun k => mkBar k 100 (if k = 40 then 30 else 10))

/-- C4 counterexample: feeding c4bars through the indicator calculator and the
volume-surge detector yields exactly one signal dated day 40, but its strength
is 600/11 (about 54.5), not 60: the trailing-20 volume mean includes the spike
day itself, so the ratio is 30/11, not 3.  The alpha_vantage variant yields
strength 1200/19 (about 63.2).  Neither equals min(3*20, 100) = 60. -/
theorem C4_round_trip_counterexample :
    detect_volume_surge (volumeAnnotate c4bars) 2 =
      [⟨40, .volume_surge, 600 / 11, 100, 30⟩]
    ∧ ((600 : ℚ) / 11 ≠ 60)
    ∧ calculate_volume_surge c4bars 2 = [⟨40, .volume_surge, 1200 / 19, 100, 30⟩]
    ∧ ((1200 : ℚ) / 19 ≠ 60) := by
  decide

/-- C4 amended: the round trip on c4bars yields exactly one volume_surge
signal dated day 40, whose strength is min((30/11)*20, 100) = 600/11 under the
pandas pipeline, the trailing-20 volume mean including the spike day; the
alpha_vantage variant yields one signal dated day 40 with strength
min((60/19)*20, 100) = 1200/19. -/
theorem C4_round_trip_amended :
    detect_volume_surge (volumeAnnotate c4bars) 2 =
      [⟨40, .volume_surge, min ((30 / 11) * 20) 100, 100, 30⟩]
    ∧ calculate_volume_surge c4bars 2 =
      [⟨40, .volume_surge, min ((60 / 19) * 20) 100, 100, 30⟩] := by
  decide

/-- Column sma_20 of calculate_technical_indicators (stock_service line 80):
data['close'].rolling(window=20).mean(). -/
def sma_20_col (bars : List Bar) (i : ℕ) : FVal :=
  if 19 ≤ i ∧ i < bars.length then
    .num ((((bars.drop (i - 19)).take 20).map Bar.close).sum / 20)
  else .nan

/-- The slice of an indicator-annotated row that detect_breakout_signals
reads. -/
structure BFrame where
  date : ℤ
  close : ℚ
  volume : ℚ
  sma_20 : FVal
  bb_upper : FVal
  volume_sma_20 : FVal
deriving DecidableEq

/-- Loop body of detect_breakout_signals (stock_service lines 165-199) for the
pair (previous, current): the SMA-breakout branch and the Bollinger branch,
each appending at most one signal.  Comparisons are float comparisons (false on
NaN), matching the pandas row accesses. -/
def breakoutAt (prev cur : BFrame) : List Signal :=
  (if cur.sma_20.flt (.num cur.close) && (FVal.num prev.close).fle prev.sma_20 &&
      cur.sma_20.notna then
    [⟨cur.date, .sma_breakout,
      60 + (if (cur.volume_sma_20.fmul (.num (3 / 2))).flt (.num cur.volume) then 20 else 0),
      cur.close, cur.volume⟩]
  else [])
  ++ (if cur.bb_upper.notna && cur.bb_upper.flt (.num cur.close) &&
      (FVal.num prev.close).fle prev.bb_upper then
    [⟨cur.date, .bollinger_breakout, 70, cur.close, cur.volume⟩]
  else [])

/-- detect_breakout_signals (stock_service lines 158-201): returns no signals
for fewer than 50 rows, otherwise scans indices 50 .. len-1. -/
def detect_breakout_signals (data : List BFrame) : List Signal :=
  if data.length < 50 then []
  else (List.range data.length).flatMap (fun i =>
    if 50 ≤ i then
      match data[i - 1]?, data[i]? with
      | some p, some c => breakoutAt p c
      | _, _ => []
    else [])

/-- Mean of period closes starting at index lo, as used by calculate_sma_signals
(alpha_vantage_service lines 215-216). -/
def sma_from (daily : List Bar) (lo period : ℕ) : ℚ :=
  (((daily.drop lo).take period).map Bar.close).sum / period

/-- Loop body of calculate_sma_signals (alpha_vantage_service lines 210-228) at
index i: upward cross of the period-day SMA, fixed strength 60. -/
def calc_sma_signal_at (period : ℕ) (daily : List Bar) (i : ℕ) : Option Signal :=
  match daily[i]?, daily[i - 1]? with
  | some cur, some prev =>
      if prev.close ≤ sma_from daily (i - period) period ∧
          sma_from daily (i - period + 1) period < cur.close then
        some ⟨cur.date, .sma_breakout, 60, cur.close, (cur.volume : ℚ)⟩
      else none
  | _, _ => none

/-- calculate_sma_signals (alpha_vantage_service lines 202-230): empty below
period+1 bars, otherwise scans indices period .. len-1. -/
def calculate_sma_signals (daily : List Bar) (period : ℕ) : List Signal :=
  if daily.length < period + 1 then []
  else (List.range daily.length).flatMap (fun i =>
    if period ≤ i then (calc_sma_signal_at period daily i).toList else [])

/-- Twenty-five flat bars at close 100 with a single upward gap to 200 from day
21 on: close crosses above the 20-day SMA exactly on day 21. -/
def c3daily : List Bar :=
  (List.range 25).map (fun k => mkBar k (if k < 21 then 100 else 200) 1000)

/-- The indicator frames of c3daily as detect_breakout_signals would see them:
sma_20 and volume_sma_20 are the genuinely computed columns.  The bb_upper
column is NaN before index 19 and 100 at indices 19-20 (the trailing window is
flat there, so the standard deviation is 0); from index 21 on its true value is
irrational (sma + 2*sqrt of a non-square rational) and is recorded here as NaN,
which is immaterial: detect_breakout_signals returns [] for any input shorter
than 50 rows before reading any column. -/
def c3frames : List BFrame :=
  (List.range 25).map (fun (k : ℕ) =>
    ⟨(k : ℤ), (if k < 21 then 100 else 200), 1000, sma_20_col c3daily k,
      (if 19 ≤ k ∧ k < 21 then FVal.num 100 else FVal.nan), volume_sma_20 c3daily k⟩)

/-- C3 counterexample: c3frames is a 25-bar flat sequence with a single upward
gap on day 21 carrying close (200) above sma20 (105), with sma20 defined at
days 20 and 21 — yet detect_breakout_signals fires zero times, not once: the
source requires at least 50 rows and scans only from index 50. -/
theorem C3_sma_breakout_counterexample :
    c3frames.length = 25
    ∧ (c3frames.map BFrame.sma_20)[20]? = some (FVal.num 100)
    ∧ (c3frames.map BFrame.sma_20)[21]? = some (FVal.num 105)
    ∧ (c3frames.map BFrame.close)[20]? = some 100
    ∧ (c3frames.map BFrame.close)[21]? = some 200
    ∧ detect_breakout_signals c3frames = [] := by
  decide

/-- C3 amended: stock_service's detect_breakout_signals yields no signals at
all on any sequence shorter than 50 frames (so zero, not one, on the 25-bar
sequence); the alpha_vantage calculate_sma_signals, which needs only the
20-bar SMA windows at i-1 and i, fires exactly once on the 25-bar sequence,
at day 21. -/
theorem C3_sma_breakout_amended :
    (∀ frames : List BFrame, frames.length < 50 → detect_breakout_signals frames = [])
    ∧ calculate_sma_signals c3daily 20 = [⟨21, .sma_breakout, 60, 200, 1000⟩] := by
  constructor
  · intro frames h
    simp [detect_breakout_signals, h]
  · decide

/-- Witness for the amended C3 theorem: its universally quantified part applied
to the concrete 25-frame input. -/
theorem C3_sma_breakout_amended_witness : detect_breakout_signals c3frames = [] :=
  C3_sma_breakout_amended.1 c3frames (by decide)

/-- Auxiliary: a list of nonnegative rationals summing to zero is all zeros. -/
theorem list_sum_zero_elem {l : List ℚ} (hnn : ∀ x ∈ l, 0 ≤ x) (hs : l.sum = 0) :
    ∀ x ∈ l, x = 0 := by
  induction l with
  | nil =>
    intro x hx
    cases hx
  | cons a t ih =>
    have ha0 : 0 ≤ a := hnn a (List.mem_cons_self a t)
    have htnn : ∀ x ∈ t, 0 ≤ x := fun x hx => hnn x (List.mem_cons_of_mem a hx)
    have hts : 0 ≤ t.sum := List.sum_nonneg htnn
    have hsum : a + t.sum = 0 := by simpa using hs
    have ha : a = 0 := le_antisymm (by linarith) ha0
    have ht : t.sum = 0 := by linarith
    intro x hx
    rcases List.mem_cons.mp hx with h | h
    · rw [h]
      exact ha
    · exact ih htnn ht x h

/-- Auxiliary: the bar at index i belongs to the trailing window of 20 volumes
ending at i. -/
theorem volume_mem_window (bars : List Bar) (i : ℕ) (h19 : 19 ≤ i)
    (b : Bar) (hb : bars[i]? = some b) :
    (b.volume : ℚ) ∈ ((bars.drop (i - 19)).take 20).map (fun x => (x.volume : ℚ)) := by
  have hidx : ((bars.drop (i - 19)).take 20)[19]? = some b := by
    rw [List.getElem?_take]
    rw [if_pos (by omega)]
    rw [List.getElem?_drop]
    have hi : i - 19 + 19 = i := by omega
    rw [hi]
    exact hb
  exact List.mem_map_of_mem _ (List.getElem?_mem hidx)

/-- C5: volume_ratio is undefined (NaN) whenever volume_sma_20 is undefined or
zero, and it is never an infinity: a zero trailing volume mean forces the
current volume (a member of the window) to be zero as well, so the division is
0/0 = NaN, never x/0 = inf. -/
theorem C5_volume_ratio_safety (bars : List Bar) (i : ℕ) :
    ((volume_sma_20 bars i = FVal.nan ∨ volume_sma_20 bars i = FVal.num 0) →
      volume_ratio_col bars i = FVal.nan)
    ∧ volume_ratio_col bars i ≠ FVal.pinf ∧ volume_ratio_col bars i ≠ FVal.ninf := by
  have hdiv : ∀ (v m : ℚ), (FVal.num v).fdiv (FVal.num m) =
      if m = 0 then (if v = 0 then FVal.nan else if 0 < v then FVal.pinf else FVal.ninf)
      else FVal.num (v / m) := fun v m => rfl
  unfold volume_ratio_col
  cases hb : bars[i]? with
  | none => exact ⟨fun _ => rfl, by simp, by simp⟩
  | some b =>
    unfold volume_sma_20
    by_cases hw : 19 ≤ i ∧ i < bars.length
    · rw [if_pos hw]
      set w := ((bars.drop (i - 19)).take 20).map (fun x => (x.volume : ℚ)) with hwdef
      have hnn : ∀ x ∈ w, 0 ≤ x := by
        intro x hx
        rcases List.mem_map.mp hx with ⟨a, _, rfl⟩
        exact Nat.cast_nonneg a.volume
      by_cases hm : w.sum / 20 = 0
      · have hsum : w.sum = 0 := by
          field_simp at hm
          exact hm
        have hv : (b.volume : ℚ) = 0 :=
          list_sum_zero_elem hnn hsum _ (volume_mem_window bars i hw.1 b hb)
        have hfd : (FVal.num (b.volume : ℚ)).fdiv (FVal.num (w.sum / 20)) = FVal.nan := by
          rw [hdiv, if_pos hm, if_pos hv]
        refine ⟨fun _ => hfd, ?_, ?_⟩
        · show (FVal.num (b.volume : ℚ)).fdiv (FVal.num (w.sum / 20)) ≠ FVal.pinf
          rw [hfd]
          simp
        · show (FVal.num (b.volume : ℚ)).fdiv (FVal.num (w.sum / 20)) ≠ FVal.ninf
          rw [hfd]
          simp
      · have hfd : (FVal.num (b.volume : ℚ)).fdiv (FVal.num (w.sum / 20)) =
            FVal.num ((b.volume : ℚ) / (w.sum / 20)) := by
          rw [hdiv, if_neg hm]
        refine ⟨?_, ?_, ?_⟩
        · intro hcase
          rcases hcase with h | h
          · exact absurd h (by simp)
          · injection h with h0
            exact absurd h0 hm
        · show (FVal.num (b.volume : ℚ)).fdiv (FVal.num (w.sum / 20)) ≠ FVal.pinf
          rw [hfd]
          simp
        · show (FVal.num (b.volume : ℚ)).fdiv (FVal.num (w.sum / 20)) ≠ FVal.ninf
          rw [hfd]
          simp
    · rw [if_neg hw]
      exact ⟨fun _ => rfl, by simp [FVal.fdiv], by simp [FVal.fdiv]⟩

/-- Twenty bars with zero volume everywhere: the trailing volume mean at index
19 is zero. -/
def w5bars : List Bar := (List.range 20).map (fun k => mkBar k 100 0)

/-- Witness for C5 at a concrete all-zero-volume input: the ratio is NaN, not
an infinity. -/
theorem C5_volume_ratio_safety_witness : volume_ratio_col w5bars 19 = FVal.nan :=
  (C5_volume_ratio_safety w5bars 19).1 (Or.inr (by decide))

/-- Weighted numerator of pandas ewm(span).mean() with the default adjust=True:
sum over k = 0..t of (1-alpha)^k * x[t-k]. -/
def ewmNum (α : ℚ) (xs : List ℚ) (t : ℕ) : ℚ :=
  ((List.range (t + 1)).map (fun k => (1 - α) ^ k * xs.getD (t - k) 0)).sum

/-- Weight total of pandas ewm(span).mean() with adjust=True. -/
def ewmDen (α : ℚ) (t : ℕ) : ℚ :=
  ((List.range (t + 1)).map (fun k => (1 - α) ^ k)).sum

/-- prices.ewm(span).mean() with the pandas defaults adjust=True and
min_periods=0, alpha = 2/(span+1): a weighted average of the whole available
history, starting from the very first element. -/
def emaAdj (α : ℚ) (xs : List ℚ) (t : ℕ) : ℚ := ewmNum α xs t / ewmDen α t

/-- macd series of _calculate_macd (stock_service lines 111-122): difference of
the span-12 and span-26 adjusted EMAs of close (alpha = 2/13 and 2/27). -/
def macdVal (closes : List ℚ) (t : ℕ) : ℚ :=
  emaAdj (2 / 13) closes t - emaAdj (2 / 27) closes t

/-- The macd values as a series (input of macd.ewm(span=9).mean()). -/
def macdList (closes : List ℚ) : List ℚ :=
  (List.range closes.length).map (macdVal closes)

/-- Column macd of calculate_technical_indicators (line 88): a number at every
in-range index, NaN only outside the series. -/
def macd_col (closes : List ℚ) (t : ℕ) : FVal :=
  if t < closes.length then .num (macdVal closes t) else .nan

/-- Column macd_signal (line 89): the span-9 adjusted EMA (alpha = 2/10) of the
macd series. -/
def macd_signal_col (closes : List ℚ) (t : ℕ) : FVal :=
  if t < closes.length then .num (emaAdj (2 / 10) (macdList closes) t) else .nan

/-- C6 counterexample: on a 2-bar series — far fewer than 26 bars of history —
macd and macd_signal are already defined at index 1 with concrete nonzero
values: prices.ewm(span=...).mean() with the pandas defaults (adjust=True,
min_periods=0) yields a value from the first bar on; there is no simple-mean
seeding over the first span closes and no undefined warm-up period. -/
theorem C6_macd_warmup_counterexample :
    macd_col [1, 2] 1 = FVal.num (7 / 312)
    ∧ macd_signal_col [1, 2] 1 = FVal.num (35 / 2808)
    ∧ macd_col [1, 2] 1 ≠ FVal.nan
    ∧ macd_signal_col [1, 2] 1 ≠ FVal.nan := by
  decide

/-- C6 amended: macd and macdSignal are defined (finite numbers) at every
in-range index, from the first bar on, computed as quotients of
(1-alpha)^k-weighted sums over all available history with alpha = 2/(span+1)
(pandas ewm, adjust=True); they are NaN only at out-of-range indices. -/
theorem C6_macd_warmup_amended (closes : List ℚ) (t : ℕ) :
    (t < closes.length →
      macd_col closes t = FVal.num (macdVal closes t)
      ∧ macd_signal_col closes t = FVal.num (emaAdj (2 / 10) (macdList closes) t))
    ∧ (closes.length ≤ t →
      macd_col closes t = FVal.nan ∧ macd_signal_col closes t = FVal.nan) := by
  constructor
  · intro h
    constructor
    · unfold macd_col
      rw [if_pos h]
    · unfold macd_signal_col
      rw [if_pos h]
  · intro h
    constructor
    · unfold macd_col
      rw [if_neg (Nat.not_lt.mpr h)]
    · unfold macd_signal_col
      rw [if_neg (Nat.not_lt.mpr h)]

/-- Witness for the amended C6 theorem on a concrete 3-bar series at index 2. -/
theorem C6_macd_warmup_amended_witness :
    macd_col [5, 6, 7] 2 = FVal.num (macdVal [5, 6, 7] 2)
    ∧ macd_signal_col [5, 6, 7] 2 = FVal.num (emaAdj (2 / 10) (macdList [5, 6, 7]) 2) :=
  (C6_macd_warmup_amended [5, 6, 7] 2).1 (by decide)

/-- Clipped positive delta series feeding the RSI gain column: delta.where()
replaces the NaN leading diff by 0 (NaN > 0 is false), so index 0 contributes
0. -/
def gainQ (prices : List ℚ) (j : ℕ) : ℚ :=
  if j = 0 then 0 else max (prices.getD j 0 - prices.getD (j - 1) 0) 0

/-- Clipped negative delta magnitudes feeding the RSI loss column. -/
def lossQ (prices : List ℚ) (j : ℕ) : ℚ :=
  if j = 0 then 0 else max (prices.getD (j - 1) 0 - prices.getD j 0) 0

/-- gain of _calculate_rsi (stock_service line 105): rolling 14-mean of the
clipped deltas, defined from index 13 on. -/
def gain_col (prices : List ℚ) (i : ℕ) : FVal :=
  if 13 ≤ i ∧ i < prices.length then
    .num (((List.range 14).map (fun k => gainQ prices (i - k))).sum / 14)
  else .nan

/-- loss of _calculate_rsi (line 106). -/
def loss_col (prices : List ℚ) (i : ℕ) : FVal :=
  if 13 ≤ i ∧ i < prices.length then
    .num (((List.range 14).map (fun k => lossQ prices (i - k))).sum / 14)
  else .nan

/-- rs = gain / loss (line 107), float division: gain/0 is +inf for a positive
gain and NaN when both are 0. -/
def rs_col (prices : List ℚ) (i : ℕ) : FVal :=
  (gain_col prices i).fdiv (loss_col prices i)

/-- rsi = 100 - 100/(1 + rs) (line 108) in float arithmetic. -/
def rsi_col (prices : List ℚ) (i : ℕ) : FVal :=
  (FVal.num 100).fsub ((FVal.num 100).fdiv ((FVal.num 1).fadd (rs_col prices i)))

/-- Float helper equations on the FVal cases the RSI computation reaches. -/
theorem fdiv_num_num (a b : ℚ) : (FVal.num a).fdiv (FVal.num b) =
    if b = 0 then (if a = 0 then FVal.nan else if 0 < a then FVal.pinf else FVal.ninf)
    else FVal.num (a / b) := rfl

/-- Addition of two finite float values. -/
theorem fadd_num_num (a b : ℚ) : (FVal.num a).fadd (FVal.num b) = FVal.num (a + b) := rfl

/-- Adding +inf to a finite value. -/
theorem fadd_num_pinf (a : ℚ) : (FVal.num a).fadd FVal.pinf = FVal.pinf := rfl

/-- Adding NaN to a finite value. -/
theorem fadd_num_nan (a : ℚ) : (FVal.num a).fadd FVal.nan = FVal.nan := rfl

/-- Dividing a finite value by +inf. -/
theorem fdiv_num_pinf (a : ℚ) : (FVal.num a).fdiv FVal.pinf = FVal.num 0 := rfl

/-- Dividing a finite value by NaN. -/
theorem fdiv_num_nan (a : ℚ) : (FVal.num a).fdiv FVal.nan = FVal.nan := rfl

/-- Subtracting two finite float values. -/
theorem fsub_num_num (a b : ℚ) : (FVal.num a).fsub (FVal.num b) = FVal.num (a + -b) := rfl

/-- Subtracting NaN from a finite value. -/
theorem fsub_num_nan (a : ℚ) : (FVal.num a).fsub FVal.nan = FVal.nan := rfl

/-- In range, the gain column is a nonnegative number. -/
theorem gain_col_spec (prices : List ℚ) (i : ℕ) (hw : 13 ≤ i ∧ i < prices.length) :
    ∃ G, gain_col prices i = FVal.num G ∧ 0 ≤ G := by
  refine ⟨((List.range 14).map (fun k => gainQ prices (i - k))).sum / 14, ?_, ?_⟩
  · unfold gain_col
    rw [if_pos hw]
  · apply div_nonneg _ (by norm_num)
    apply List.sum_nonneg
    intro x hx
    rcases List.mem_map.mp hx with ⟨k, _, rfl⟩
    unfold gainQ
    split
    · exact le_refl 0
    · exact le_max_right _ _

/-- In range, the loss column is a nonnegative number. -/
theorem loss_col_spec (prices : List ℚ) (i : ℕ) (hw : 13 ≤ i ∧ i < prices.length) :
    ∃ L, loss_col prices i = FVal.num L ∧ 0 ≤ L := by
  refine ⟨((List.range 14).map (fun k => lossQ prices (i - k))).sum / 14, ?_, ?_⟩
  · unfold loss_col
    rw [if_pos hw]
  · apply div_nonneg _ (by norm_num)
    apply List.sum_nonneg
    intro x hx
    rcases List.mem_map.mp hx with ⟨k, _, rfl⟩
    unfold lossQ
    split
    · exact le_refl 0
    · exact le_max_right _ _

/-- C7: whenever rsi14 is defined its value lies in [0, 100], and when the
trailing-14 average loss is 0 while the average gain is positive, rsi14 is
exactly 100 (rs overflows to +inf, 100/(1+inf) collapses to 0): no infinity or
NaN escapes. -/
theorem C7_rsi_bounds (prices : List ℚ) (i : ℕ) :
    (∀ v, rsi_col prices i = FVal.num v → 0 ≤ v ∧ v ≤ 100)
    ∧ (∀ g, loss_col prices i = FVal.num 0 → gain_col prices i = FVal.num g → 0 < g →
        rsi_col prices i = FVal.num 100) := by
  by_cases hw : 13 ≤ i ∧ i < prices.length
  · obtain ⟨G, hgcol, hG0⟩ := gain_col_spec prices i hw
    obtain ⟨L, hlcol, hL0⟩ := loss_col_spec prices i hw
    have hrs : rs_col prices i = (FVal.num G).fdiv (FVal.num L) := by
      unfold rs_col
      rw [hgcol, hlcol]
    by_cases hLz : L = 0
    · by_cases hGz : G = 0
      · have hrs2 : rs_col prices i = FVal.nan := by
          rw [hrs, fdiv_num_num, if_pos hLz, if_pos hGz]
        have hrsi : rsi_col prices i = FVal.nan := by
          unfold rsi_col
          rw [hrs2, fadd_num_nan, fdiv_num_nan, fsub_num_nan]
        constructor
        · intro v hv
          rw [hrsi] at hv
          exact absurd hv (by simp)
        · intro g h0 hg hgpos
          rw [hgcol] at hg
          injection hg with h
          rw [← h, hGz] at hgpos
          exact absurd hgpos (lt_irrefl 0)
      · have hGpos : 0 < G := lt_of_le_of_ne hG0 (Ne.symm hGz)
        have hrs2 : rs_col prices i = FVal.pinf := by
          rw [hrs, fdiv_num_num, if_pos hLz, if_neg hGz, if_pos hGpos]
        have hrsi : rsi_col prices i = FVal.num 100 := by
          unfold rsi_col
          rw [hrs2, fadd_num_pinf, fdiv_num_pinf, fsub_num_num]
          norm_num
        constructor
        · intro v hv
          rw [hrsi] at hv
          injection hv with h
          rw [← h]
          norm_num
        · intro g _ _ _
          exact hrsi
    · have hLpos : 0 < L := lt_of_le_of_ne hL0 (Ne.symm hLz)
      have hr0 : 0 ≤ G / L := div_nonneg hG0 hL0
      have h1pos : (0 : ℚ) < 1 + G / L := by linarith
      have h1r : (1 : ℚ) + G / L ≠ 0 := h1pos.ne'
      have hrs2 : rs_col prices i = FVal.num (G / L) := by
        rw [hrs, fdiv_num_num, if_neg hLz]
      have hrsi : rsi_col prices i = FVal.num (100 + -(100 / (1 + G / L))) := by
        unfold rsi_col
        rw [hrs2, fadd_num_num, fdiv_num_num, if_neg h1r, fsub_num_num]
      constructor
      · intro v hv
        rw [hrsi] at hv
        injection hv with h
        rw [← h]
        have hx1 : 0 < 100 / (1 + G / L) := div_pos (by norm_num) h1pos
        have hx2 : 100 / (1 + G / L) ≤ 100 := by
          rw [div_le_iff₀ h1pos]
          nlinarith
        constructor <;> linarith
      · intro g h0 _ _
        rw [hlcol] at h0
        injection h0 with h
        exact absurd h hLz
  · have hgcol : gain_col prices i = FVal.nan := by
      unfold gain_col
      rw [if_neg hw]
    have hlcol : loss_col prices i = FVal.nan := by
      unfold loss_col
      rw [if_neg hw]
    have hrsi : rsi_col prices i = FVal.nan := by
      unfold rsi_col rs_col
      rw [hgcol, hlcol]
      rfl
    constructor
    · intro v hv
      rw [hrsi] at hv
      exact absurd hv (by simp)
    · intro g h0
      rw [hlcol] at h0
      exact absurd h0 (by simp)

/-- Fifteen strictly rising prices: all 14 trailing deltas at index 14 are
gains, so the average loss is 0 and the average gain is 1. -/
def w7prices : List ℚ := [0, 1, 2, 3, 4, 5, 6, 7, 8, 9, 10, 11, 12, 13, 14]

/-- Witness for C7: on the rising series the hypotheses hold concretely and the
RSI evaluates to exactly 100, inside [0, 100]. -/
theorem C7_rsi_bounds_witness :
    rsi_col w7prices 14 = FVal.num 100 ∧ (0 ≤ (100 : ℚ) ∧ (100 : ℚ) ≤ 100) :=
  ⟨(C7_rsi_bounds w7prices 14).2 1 (by decide) (by decide) (by decide),
   (C7_rsi_bounds w7prices 14).1 100
     ((C7_rsi_bounds w7prices 14).2 1 (by decide) (by decide) (by decide))⟩

/-- The slice of an indicator-annotated row that detect_reversal_signals
reads. -/
structure RFrame where
  date : ℤ
  open_price : ℚ
  high : ℚ
  low : ℚ
  close : ℚ
  volume : ℚ
  macd : FVal
  macd_signal : FVal
deriving DecidableEq

/-- Loop body of detect_reversal_signals (stock_service lines 210-244) at index
i (the source also binds data.iloc[i-2], which its conditions never read): the
hammer-shape test on the current bar — lower shadow > 2*body, upper shadow <
0.5*body, close > open, all plain inequality comparisons with no division —
then the MACD golden-cross test against the previous row (float comparisons,
false on NaN; the previous row's values are not notna-checked, a NaN there
simply fails the <= comparison). -/
def reversalAt (prev cur : RFrame) : List Signal :=
  (if min cur.close cur.open_price - cur.low > |cur.close - cur.open_price| * 2 ∧
      cur.high - max cur.close cur.open_price < |cur.close - cur.open_price| * (1 / 2) ∧
      cur.open_price < cur.close then
    [⟨cur.date, .hammer_reversal, 65, cur.close, cur.volume⟩]
  else [])
  ++ (if cur.macd.notna && cur.macd_signal.notna && cur.macd_signal.flt cur.macd &&
      prev.macd.fle prev.macd_signal then
    [⟨cur.date, .macd_golden_cross, 55, cur.close, cur.volume⟩]
  else [])

/-- detect_reversal_signals (stock_service lines 203-246): returns no signals
for fewer than 30 rows, otherwise scans indices 2 .. len-1. -/
def detect_reversal_signals (data : List RFrame) : List Signal :=
  if data.length < 30 then []
  else (List.range data.length).flatMap (fun i =>
    if 2 ≤ i then
      match data[i - 1]?, data[i]? with
      | some p, some c => reversalAt p c
      | _, _ => []
    else [])

/-- Every emitted reversal signal originates from reversalAt at some index
i >= 2 applied to rows i-1 and i. -/
theorem reversal_mem_structure (data : List RFrame) (s : Signal)
    (hs : s ∈ detect_reversal_signals data) :
    ∃ (i : ℕ) (prev cur : RFrame), 2 ≤ i ∧ i < data.length ∧
      data[i - 1]? = some prev ∧ data[i]? = some cur ∧ s ∈ reversalAt prev cur := by
  unfold detect_reversal_signals at hs
  by_cases h30 : data.length < 30
  · rw [if_pos h30] at hs
    exact absurd hs (List.not_mem_nil s)
  · rw [if_neg h30] at hs
    rcases List.mem_flatMap.mp hs with ⟨i, hir, hsi⟩
    have hilen : i < data.length := List.mem_range.mp hir
    by_cases h2 : 2 ≤ i
    · rw [if_pos h2] at hsi
      have h1 : i - 1 < data.length := by omega
      rw [List.getElem?_eq_getElem h1, List.getElem?_eq_getElem hilen] at hsi
      exact ⟨i, data.get ⟨i - 1, h1⟩, data.get ⟨i, hilen⟩, h2, hilen,
        List.getElem?_eq_getElem h1, List.getElem?_eq_getElem hilen, hsi⟩
    · rw [if_neg h2] at hsi
      exact absurd hsi (List.not_mem_nil s)

/-- A signal of hammer kind emitted by reversalAt is dated at the current row
and that row passes the hammer shape test. -/
theorem reversalAt_hammer (prev cur : RFrame) (s : Signal) (hs : s ∈ reversalAt prev cur)
    (hst : s.stype = SigType.hammer_reversal) :
    s.date = cur.date ∧
      (min cur.close cur.open_price - cur.low > |cur.close - cur.open_price| * 2 ∧
       cur.high - max cur.close cur.open_price < |cur.close - cur.open_price| * (1 / 2) ∧
       cur.open_price < cur.close) := by
  unfold reversalAt at hs
  rcases List.mem_append.mp hs with h | h
  · by_cases hc : min cur.close cur.open_price - cur.low > |cur.close - cur.open_price| * 2 ∧
        cur.high - max cur.close cur.open_price < |cur.close - cur.open_price| * (1 / 2) ∧
        cur.open_price < cur.close
    · rw [if_pos hc] at h
      rw [List.mem_singleton] at h
      subst h
      exact ⟨rfl, hc⟩
    · rw [if_neg hc] at h
      exact absurd h (List.not_mem_nil s)
  · by_cases hc : (cur.macd.notna && cur.macd_signal.notna && cur.macd_signal.flt cur.macd &&
        prev.macd.fle prev.macd_signal) = true
    · rw [if_pos hc] at h
      rw [List.mem_singleton] at h
      subst h
      exact absurd hst (by simp)
    · rw [if_neg hc] at h
      exact absurd h (List.not_mem_nil s)

/-- C10: the reversal detector emits nothing on sequences shorter than 30
frames (even if some frame passes the hammer shape test), and every signal it
ever emits originates from an index i >= 2 — never from index 0 or 1. -/
theorem C10_reversal_guard (data : List RFrame) :
    (data.length < 30 → detect_reversal_signals data = [])
    ∧ (∀ s ∈ detect_reversal_signals data, ∃ (i : ℕ) (prev cur : RFrame),
        2 ≤ i ∧ i < data.length ∧ data[i - 1]? = some prev ∧ data[i]? = some cur ∧
        s ∈ reversalAt prev cur) := by
  constructor
  · intro h
    unfold detect_reversal_signals
    rw [if_pos h]
  · intro s hs
    exact reversal_mem_structure data s hs

/-- Three frames whose last bar passes the hammer shape test (body 1, lower
shadow 3, upper shadow 1/5) — still no signals: only 3 < 30 frames. -/
def w10data : List RFrame :=
  [⟨0, 5, 5, 5, 5, 1, FVal.nan, FVal.nan⟩,
   ⟨1, 5, 5, 5, 5, 1, FVal.nan, FVal.nan⟩,
   ⟨2, 10, 56 / 5, 7, 11, 1, FVal.nan, FVal.nan⟩]

/-- Thirty frames, flat zero-range candles except a hammer-shaped bar at index
5, which yields exactly one hammer signal. -/
def w10sig : List RFrame :=
  (List.range 30).map (fun (k : ℕ) =>
    if k = 5 then ⟨5, 10, 56 / 5, 7, 11, 1, FVal.nan, FVal.nan⟩
    else ⟨(k : ℤ), 5, 5, 5, 5, 1, FVal.nan, FVal.nan⟩)

/-- Witness for C10: the short-input part at a 3-frame input containing a
hammer-shaped bar, and the origin part at a concrete emitted signal. -/
theorem C10_reversal_guard_witness :
    detect_reversal_signals w10data = []
    ∧ (∃ (i : ℕ) (prev cur : RFrame), 2 ≤ i ∧ i < w10sig.length ∧
        w10sig[i - 1]? = some prev ∧ w10sig[i]? = some cur ∧
        (⟨5, .hammer_reversal, 65, 11, 1⟩ : Signal) ∈ reversalAt prev cur) :=
  ⟨(C10_reversal_guard w10data).1 (by decide),
   (C10_reversal_guard w10sig).2 ⟨5, .hammer_reversal, 65, 11, 1⟩ (by decide)⟩

/-- C8: a zero-range candle (open = close = high = low) never fires the
hammer-reversal rule: under the data-model invariant of strictly increasing
dates, no hammer signal in the detector's output carries that bar's date.  The
shape tests are pure inequality comparisons (lower > 2*body, upper < body/2),
so no division by the zero body occurs anywhere. -/
theorem C8_hammer_zero_body (data : List RFrame) (i : ℕ) (hi : i < data.length)
    (hmono : List.Pairwise (fun a b => a.date < b.date) data)
    (hz : data[i].open_price = data[i].close ∧ data[i].close = data[i].high ∧
      data[i].high = data[i].low) :
    ∀ s ∈ detect_reversal_signals data, s.stype = SigType.hammer_reversal →
      s.date ≠ data[i].date := by
  intro s hs hst heq
  obtain ⟨j, prev, cur, h2, hjlen, hp, hq, hsr⟩ := reversal_mem_structure data s hs
  obtain ⟨hdate, hshape⟩ := reversalAt_hammer prev cur s hsr hst
  have hcur : cur = data[j] := by
    rw [List.getElem?_eq_getElem hjlen] at hq
    injection hq with h
    exact h.symm
  have hdj : s.date = data[j].date := by rw [hdate, hcur]
  have hdates := List.pairwise_iff_getElem.mp hmono
  rcases Nat.lt_trichotomy j i with hji | hji | hji
  · have hlt := hdates j i hjlen hi hji
    rw [hdj] at heq
    rw [heq] at hlt
    exact absurd hlt (lt_irrefl _)
  · subst hji
    have hoc : cur.open_price < cur.close := hshape.2.2
    rw [hcur] at hoc
    rw [hz.1] at hoc
    exact absurd hoc (lt_irrefl _)
  · have hlt := hdates i j hi hjlen hji
    rw [hdj] at heq
    rw [heq] at hlt
    exact absurd hlt (lt_irrefl _)

/-- Witness for C8 fully instantiated: w10sig has strictly increasing dates, a
zero-range candle at index 7, and its detector output contains the hammer
signal emitted at index 5; that signal's date differs from the zero-range
bar's date. -/
theorem C8_hammer_zero_body_witness :
    (⟨5, .hammer_reversal, 65, 11, 1⟩ : Signal).date ≠ (w10sig.get ⟨7, by decide⟩).date :=
  C8_hammer_zero_body w10sig 7 (by decide) (by decide) (by decide)
    ⟨5, .hammer_reversal, 65, 11, 1⟩ (by decide) rfl

/-- A scored ranking candidate (one per-symbol analysis result; only the score
participates in ranking, the symbol field keeps entries distinguishable). -/
structure PEntry where
  symbol : ℤ
  score : ℚ
deriving DecidableEq

/-- Stable descending insertion: the new element goes after every earlier
element with a strictly greater score and before the first one with a smaller
or equal score. -/
def insertDesc (x : PEntry) : List PEntry → List PEntry
  | [] => [x]
  | y :: ys => if x.score < y.score then y :: insertDesc x ys else x :: y :: ys

/-- Stable descending sort by score, the behaviour of Python's stable
results.sort(key=score, reverse=True). -/
def sortDesc : List PEntry → List PEntry
  | [] => []
  | x :: xs => insertDesc x (sortDesc xs)

/-- Ranking core of get_potential_stocks (stock_service lines 327-348, and
identically alpha_vantage_service lines 304-323) downstream of the per-symbol
analyses: keep the candidates scoring strictly above 30 in encounter order,
sort descending by score (stably), truncate to the first limit entries. -/
def get_potential_stocks (results : List PEntry) (limit : ℕ) : List PEntry :=
  (sortDesc (results.filter (fun e => 30 < e.score))).take limit

/-- Inserting is a permutation with consing. -/
theorem insertDesc_perm (x : PEntry) (l : List PEntry) : List.Perm (insertDesc x l) (x :: l) := by
  induction l with
  | nil => simp [insertDesc]
  | cons y ys ih =>
    unfold insertDesc
    by_cases h : x.score < y.score
    · rw [if_pos h]
      exact (ih.cons y).trans (List.Perm.swap x y ys)
    · rw [if_neg h]

/-- Sorting is a permutation. -/
theorem sortDesc_perm (l : List PEntry) : List.Perm (sortDesc l) l := by
  induction l with
  | nil => rfl
  | cons x xs ih =>
    exact (insertDesc_perm x (sortDesc xs)).trans (ih.cons x)

/-- Inserting preserves descending sortedness. -/
theorem insertDesc_sorted (x : PEntry) (l : List PEntry)
    (h : l.Pairwise (fun a b => b.score ≤ a.score)) :
    (insertDesc x l).Pairwise (fun a b => b.score ≤ a.score) := by
  induction l with
  | nil => simp [insertDesc]
  | cons y ys ih =>
    rcases List.pairwise_cons.mp h with ⟨hy, hys⟩
    unfold insertDesc
    by_cases hc : x.score < y.score
    · rw [if_pos hc]
      apply List.pairwise_cons.mpr
      refine ⟨?_, ih hys⟩
      intro z hz
      rcases List.mem_cons.mp ((insertDesc_perm x ys).mem_iff.mp hz) with hzx | hzys
      · rw [hzx]
        exact le_of_lt hc
      · exact hy z hzys
    · rw [if_neg hc]
      apply List.pairwise_cons.mpr
      refine ⟨?_, h⟩
      intro z hz
      rcases List.mem_cons.mp hz with hzy | hzys
      · rw [hzy]
        exact le_of_not_lt hc
      · exact le_trans (hy z hzys) (le_of_not_lt hc)

/-- The sort output is descending by score. -/
theorem sortDesc_sorted (l : List PEntry) :
    (sortDesc l).Pairwise (fun a b => b.score ≤ a.score) := by
  induction l with
  | nil => simp [sortDesc]
  | cons x xs ih => exact insertDesc_sorted x (sortDesc xs) ih

/-- Stability at the insertion step: restricting to any fixed score value
commutes with insertion, since every element passed over has a strictly
greater score. -/
theorem insertDesc_filter_eq (x : PEntry) (l : List PEntry) (q : ℚ) :
    (insertDesc x l).filter (fun e => e.score = q) =
      (if x.score = q then x :: l.filter (fun e => e.score = q)
       else l.filter (fun e => e.score = q)) := by
  induction l with
  | nil =>
    by_cases hx : x.score = q
    · simp [insertDesc, hx]
    · simp [insertDesc, hx]
  | cons y ys ih =>
    unfold insertDesc
    by_cases hc : x.score < y.score
    · rw [if_pos hc]
      by_cases hx : x.score = q
      · have hy : ¬ y.score = q := by
          intro hyq
          rw [hx, hyq] at hc
          exact absurd hc (lt_irrefl q)
        simp only [List.filter_cons, hx, hy, ih]
        simp [hx, hy]
      · simp only [List.filter_cons, hx, ih]
        simp [hx]
    · rw [if_neg hc]
      by_cases hx : x.score = q
      · simp [List.filter_cons, hx]
      · simp [List.filter_cons, hx]

/-- Stability of the sort: the elements of any fixed score value appear in the
output exactly in their input order. -/
theorem sortDesc_filter_eq (l : List PEntry) (q : ℚ) :
    (sortDesc l).filter (fun e => e.score = q) = l.filter (fun e => e.score = q) := by
  induction l with
  | nil => rfl
  | cons x xs ih =>
    show (insertDesc x (sortDesc xs)).filter (fun e => e.score = q) = _
    rw [insertDesc_filter_eq]
    by_cases hx : x.score = q
    · rw [if_pos hx, ih]
      simp [List.filter_cons, hx]
    · rw [if_neg hx, ih]
      simp [List.filter_cons, hx]

/-- C9: the ranker's output is sorted descending by score; it contains only
input candidates scoring strictly above 30; its length is limit capped only by
the number of qualifying candidates (no ceiling of its own on limit); and
whenever limit does not truncate, it contains exactly the candidates scoring
above 30, with tied scores preserving input order (stability). -/
theorem C9_ranker_spec (results : List PEntry) (limit : ℕ) :
    (get_potential_stocks results limit).Pairwise (fun a b => b.score ≤ a.score)
    ∧ (∀ e ∈ get_potential_stocks results limit, e ∈ results ∧ 30 < e.score)
    ∧ (get_potential_stocks results limit).length =
        min limit (results.filter (fun e => 30 < e.score)).length
    ∧ ((results.filter (fun e => 30 < e.score)).length ≤ limit →
        ∀ q : ℚ, (get_potential_stocks results limit).filter (fun e => e.score = q) =
          results.filter (fun e => 30 < e.score ∧ e.score = q)) := by
  refine ⟨?_, ?_, ?_, ?_⟩
  · exact (sortDesc_sorted (results.filter (fun e => 30 < e.score))).sublist
      (List.take_sublist _ _)
  · intro e he
    have h1 : e ∈ sortDesc (results.filter (fun e => 30 < e.score)) :=
      (List.take_sublist _ _).subset he
    have h2 : e ∈ results.filter (fun e => 30 < e.score) :=
      (sortDesc_perm _).mem_iff.mp h1
    rcases List.mem_filter.mp h2 with ⟨hmem, hsc⟩
    exact ⟨hmem, of_decide_eq_true hsc⟩
  · unfold get_potential_stocks
    rw [List.length_take, (sortDesc_perm _).length_eq]
  · intro hle q
    unfold get_potential_stocks
    rw [List.take_of_length_le (by rw [(sortDesc_perm _).length_eq]; exact hle)]
    rw [sortDesc_filter_eq, List.filter_filter]
    apply List.filter_congr
    intro a _
    simp only [Bool.decide_and]
    exact Bool.and_comm _ _

/-- Four scored candidates, two of them tied at 50, one below the threshold. -/
def w9entries : List PEntry := [⟨1, 50⟩, ⟨2, 10⟩, ⟨3, 50⟩, ⟨4, 40⟩]

/-- Witness for C9: with no truncation the entries of score 50 come out exactly
in input order and above the threshold, and a concrete output member is a
qualifying input candidate. -/
theorem C9_ranker_spec_witness :
    ((get_potential_stocks w9entries 9).filter (fun e => e.score = (50 : ℚ)) =
      w9entries.filter (fun e => 30 < e.score ∧ e.score = 50))
    ∧ ((⟨1, 50⟩ : PEntry) ∈ w9entries ∧ (30 : ℚ) < 50) :=
  ⟨(C9_ranker_spec w9entries 9).2.2.2 (by decide) 50,
   (C9_ranker_spec w9entries 9).2.1 ⟨1, 50⟩ (by decide)⟩

end StockAnalysis
